import Mathlib

/-!
Shallow embedding of the traversal/queueing core of `spydey/spider.py`:
the five frontier queue variants (`FifoUrlQueue`, `RandomizingUrlQueue`,
`DepthFirstQueue`, `HybridTraverseQueue`, `PatternPrioritizingUrlQueue`),
the link filter (`Spider.filter_links`) and the crawl driver
(`Spider.crawl`), together with the pieces of the Python standard library
the core calls (`urlparse.urlsplit`/`urlunsplit`, `posixpath.normpath`,
`str.count`, `str.strip`, `list.sort`).
-/

namespace Spydey

/-- Python `s.count(c)` for a single character `c`. -/
def countChar (c : Char) (s : String) : Nat :=
  (s.toList.filter (fun d => d = c)).length

/-- The sort key `lambda s: s.count('/')` used by `DepthFirstQueue.extend`
and `PatternPrioritizingUrlQueue.extend`. -/
def countSlash (s : String) : Nat := countChar '/' s

/-- Stable insertion used to model Python's stable `list.sort(key=...)`
(ascending): an element is placed before the first strictly greater key,
so elements with equal keys keep their original relative order. -/
def insertByKey (key : String → Nat) (x : String) : List String → List String
  | [] => [x]
  | y :: ys => if key x < key y then x :: y :: ys else y :: insertByKey key x ys

/-- Python `urls.sort(key=...)` / `sorted(urls, key=...)`: stable ascending sort. -/
def sortByKey (key : String → Nat) (l : List String) : List String :=
  l.foldl (fun acc x => insertByKey key x acc) []

/-- Stable insertion for a descending sort (`sorted(..., reverse=True)`). -/
def insertByKeyDesc (key : String → Nat) (x : String) : List String → List String
  | [] => [x]
  | y :: ys => if key y < key x then x :: y :: ys else y :: insertByKeyDesc key x ys

/-- Python `sorted(urls, key=..., reverse=True)`: stable descending sort. -/
def sortByKeyDesc (key : String → Nat) (l : List String) : List String :=
  l.foldl (fun acc x => insertByKeyDesc key x acc) []

/-- Split a character list at the first occurrence of any delimiter; the
delimiter stays at the head of the remainder.  Models `urlparse._splitnetloc`,
which cuts the netloc at the first of `/?#`. -/
def splitAtFirst (delims : List Char) : List Char → List Char × List Char
  | [] => ([], [])
  | c :: cs =>
    if c ∈ delims then ([], c :: cs)
    else
      let p := splitAtFirst delims cs
      (c :: p.1, p.2)

/-- Python `s.split(d, 1)` when the delimiter occurs: the part before the
first occurrence and the part after it (delimiter dropped); `none` when the
delimiter is absent. -/
def splitOnce (d : Char) : List Char → Option (List Char × List Char)
  | [] => none
  | c :: cs =>
    if c = d then some ([], cs)
    else (splitOnce d cs).map (fun p => (c :: p.1, p.2))

/-- Python `s.split(c)` on a single-character separator (empty parts kept). -/
def splitOnChar (c : Char) : List Char → List (List Char)
  | [] => [[]]
  | d :: ds =>
    if d = c then [] :: splitOnChar c ds
    else
      match splitOnChar c ds with
      | [] => [[d]]
      | g :: gs => (d :: g) :: gs

/-- Drop leading occurrences of a character. -/
def dropLeading (c : Char) (l : List Char) : List Char :=
  l.dropWhile (fun d => d = c)

/-- Python `s.strip(c)`: remove the character from both ends. -/
def stripChar (c : Char) (s : String) : String :=
  ((dropLeading c (dropLeading c s.toList).reverse).reverse).asString

/-- Boolean string-prefix test on character lists (Python `s.startswith(p)`). -/
def leadsWith : List Char → List Char → Bool
  | [], _ => true
  | _ :: _, [] => false
  | a :: as, b :: bs => a = b && leadsWith as bs

/-- Python `link.startswith(base)`. -/
def hasStart (link base : String) : Bool :=
  leadsWith base.toList link.toList

/-- The five components returned by `urlparse.urlsplit`. -/
structure UrlParts where
  scheme : String
  netloc : String
  path : String
  query : String
  fragment : String
deriving DecidableEq

/-- Characters allowed in a URL scheme (`urlparse.scheme_chars`). -/
def isSchemeChar (c : Char) : Bool :=
  c.isAlpha || c.isDigit || c = '+' || c = '-' || c = '.'

/-- Shared tail of `urlparse.urlsplit` after the scheme has been removed:
netloc (only after a leading `//`, cut at the first of `/?#`), then the
fragment (only when fragments are allowed), then the query at the first `?`.
Spider.py only ever splits http-style links, whose scheme is in
`urlparse.uses_query`, so the query split is applied unconditionally. -/
def urlsplitRest (allowFragments : Bool) (scheme : String) (rest : List Char) :
    UrlParts :=
  let p :=
    if rest.take 2 = ['/', '/'] then splitAtFirst ['/', '?', '#'] (rest.drop 2)
    else ([], rest)
  let netloc := p.1
  let q :=
    if allowFragments then
      match splitOnce '#' p.2 with
      | some r => (r.1, r.2)
      | none => (p.2, [])
    else (p.2, [])
  let r :=
    match splitOnce '?' q.1 with
    | some r => (r.1, r.2)
    | none => (q.1, [])
  ⟨scheme, netloc.asString, r.1.asString, r.2.asString, q.2.asString⟩

/-- Python 2 `urlparse.urlsplit(url, allow_fragments=...)`.  The `;`-parameter
handling of `urlparse.urlparse` is not modelled (no URL handled by spider.py
carries path parameters), so this single function serves both `urlsplit` and
`urlparse` as used by the source. -/
def pyUrlsplit (allowFragments : Bool) (url : String) : UrlParts :=
  match splitOnce ':' url.toList with
  | some (before, after) =>
    if before = "http".toList then urlsplitRest allowFragments "http" after
    else if before ≠ [] ∧ before.all isSchemeChar = true ∧
        (after = [] ∨ ¬ after.all Char.isDigit = true) then
      urlsplitRest allowFragments (before.map Char.toLower).asString after
    else urlsplitRest allowFragments "" url.toList
  | none => urlsplitRest allowFragments "" url.toList

/-- Python `urlparse.urlunsplit`. -/
def pyUrlunsplit (p : UrlParts) : String :=
  let url := p.path
  let url :=
    if p.netloc ≠ "" ∨ (url ≠ "" ∧ url.toList.take 2 = ['/', '/']) then
      (if url ≠ "" ∧ url.toList.take 1 ≠ ['/'] then
        "//" ++ p.netloc ++ "/" ++ url
      else "//" ++ p.netloc ++ url)
    else url
  let url := if p.scheme ≠ "" then p.scheme ++ ":" ++ url else url
  let url := if p.query ≠ "" then url ++ "?" ++ p.query else url
  if p.fragment ≠ "" then url ++ "#" ++ p.fragment else url

/-- Python `path.split('#', 1)[0]` on a character list: the prefix of the
path before its first `#`, the whole path when there is none. -/
def hashHeadList (cs : List Char) : List Char :=
  (splitAtFirst ['#'] cs).1

/-- Python `path.split('#', 1)[0]` (`Spider.filter_links`). -/
def hashHead (s : String) : String :=
  (hashHeadList s.toList).asString

/-- The fragment-discarding normalization at the top of
`Spider.filter_links`: split with `allow_fragments=False`, force the
fragment to the empty string, drop a stray `#`-suffix from the path
component, and rebuild the URL. -/
def normalizeLink (link : String) : String :=
  let p := pyUrlsplit false link
  pyUrlunsplit ⟨p.scheme, p.netloc, hashHead p.path, p.query, ""⟩

/-! ## The frontier queue variants -/

/-- State of `FifoUrlQueue` (and, with the same `urls : list` reading, of
`RandomizingUrlQueue` and `DepthFirstQueue`, which inherit its fields): the
pending deque/list (head = left end), the dedup set `known_urls` (modelled
as a duplicate-free list), and the first-referrer map (modelled as an
association list; a key is inserted at most once, under the dedup guard). -/
structure FifoState where
  urls : List String
  known_urls : List String
  referrers : List (String × Option String)
deriving DecidableEq

/-- `FifoUrlQueue.__init__` (also `RandomizingUrlQueue.__init__`). -/
def fifoInit : FifoState := ⟨[], [], []⟩

/-- `FifoUrlQueue.append`: insert at the tail if and only if the URL is not
in `known_urls`; inherited unchanged by `RandomizingUrlQueue`,
`DepthFirstQueue` and `HybridTraverseQueue`. -/
def fifoAppend (s : FifoState) (url : String) (referrer : Option String) :
    FifoState :=
  if url ∈ s.known_urls then s
  else ⟨s.urls ++ [url], url :: s.known_urls, (url, referrer) :: s.referrers⟩

/-- `FifoUrlQueue.extend`: one `append` per element, in batch order.  The
second component is the content of the caller's `urls` list object after the
call (FIFO leaves the argument untouched). -/
def fifoExtendP (s : FifoState) (urls : List String) (referrer : Option String) :
    FifoState × List String :=
  (urls.foldl (fun t u => fifoAppend t u referrer) s, urls)

/-- Queue state after `FifoUrlQueue.extend`. -/
def fifoExtend (s : FifoState) (urls : List String) (referrer : Option String) :
    FifoState :=
  (fifoExtendP s urls referrer).1

/-- `FifoUrlQueue.pop` = `deque.popleft()`: head removal; `none` models the
`IndexError` a pop on an empty deque raises. -/
def fifoPop (s : FifoState) : Option (String × FifoState) :=
  match s.urls with
  | [] => none
  | u :: rest => some (u, ⟨rest, s.known_urls, s.referrers⟩)

/-- `FifoUrlQueue.__len__` (also `RandomizingUrlQueue`, `DepthFirstQueue`,
`HybridTraverseQueue`). -/
def fifoLen (s : FifoState) : Nat := s.urls.length

/-- `RandomizingUrlQueue.pop`: `i = random.randint(0, len(urls)-1)` then
`urls.pop(i)`.  The random draw is an oracle parameter `i`, reduced modulo
the length (the identity on every value `randint` can actually return);
`none` models the `ValueError` raised by `randint(0, -1)` when the list is
empty. -/
def randomPop (i : Nat) (s : FifoState) : Option (String × FifoState) :=
  if h : s.urls.length = 0 then none
  else
    let j : Fin s.urls.length :=
      ⟨i % s.urls.length, Nat.mod_lt i (Nat.pos_of_ne_zero h)⟩
    some (s.urls.get j, ⟨s.urls.eraseIdx j.val, s.known_urls, s.referrers⟩)

/-- `DepthFirstQueue.extend`: `urls.sort(key=lambda s: s.count('/'))` is an
in-place sort of the caller's list, then `FifoUrlQueue.extend` on the sorted
list.  The second component is the content of the caller's list after the
call: the sorted list (the observable mutation). -/
def depthExtendP (s : FifoState) (urls : List String) (referrer : Option String) :
    FifoState × List String :=
  let sorted := sortByKey countSlash urls
  (fifoExtend s sorted referrer, sorted)

/-- Queue state after `DepthFirstQueue.extend`. -/
def depthExtend (s : FifoState) (urls : List String) (referrer : Option String) :
    FifoState :=
  (depthExtendP s urls referrer).1

/-- `DepthFirstQueue.pop` = `deque.pop()`: tail removal (LIFO). -/
def depthPop (s : FifoState) : Option (String × FifoState) :=
  match s.urls.getLast? with
  | none => none
  | some u => some (u, ⟨s.urls.dropLast, s.known_urls, s.referrers⟩)

/-- State of `HybridTraverseQueue`: the inherited fields plus the bound
method `self.next`; `nextIsPop` is the truth value of the comparison
`self.next == self.urls.pop` performed by `HybridTraverseQueue.pop`. -/
structure HybridState where
  urls : List String
  known_urls : List String
  referrers : List (String × Option String)
  nextIsPop : Bool
deriving DecidableEq

/-- `HybridTraverseQueue.__init__`: `self.next = self.urls.pop`. -/
def hybridInit : HybridState := ⟨[], [], [], true⟩

/-- `FifoUrlQueue.append` as inherited by `HybridTraverseQueue` (the flag is
untouched). -/
def hybridAppend (s : HybridState) (url : String) (referrer : Option String) :
    HybridState :=
  if url ∈ s.known_urls then s
  else ⟨s.urls ++ [url], url :: s.known_urls, (url, referrer) :: s.referrers,
    s.nextIsPop⟩

/-- `DepthFirstQueue.extend` as inherited by `HybridTraverseQueue`; the
second component is the caller's list after the in-place sort. -/
def hybridExtendP (s : HybridState) (urls : List String)
    (referrer : Option String) : HybridState × List String :=
  let sorted := sortByKey countSlash urls
  (sorted.foldl (fun t u => hybridAppend t u referrer) s, sorted)

/-- Queue state after the hybrid variant's `extend`. -/
def hybridExtend (s : HybridState) (urls : List String)
    (referrer : Option String) : HybridState :=
  (hybridExtendP s urls referrer).1

/-- `HybridTraverseQueue.pop`: when `self.next == self.urls.pop` the method
reassigns `self.next = self.urls.popleft` and then calls it, so it removes
from the HEAD; otherwise it reassigns `self.next = self.urls.pop` and
removes from the tail.  The toggle happens before the removal. -/
def hybridPop (s : HybridState) : Option (String × HybridState) :=
  if s.nextIsPop then
    match s.urls with
    | [] => none
    | u :: rest => some (u, ⟨rest, s.known_urls, s.referrers, false⟩)
  else
    match s.urls.getLast? with
    | none => none
    | some u => some (u, ⟨s.urls.dropLast, s.known_urls, s.referrers, true⟩)

/-- Length of the hybrid queue (inherited `__len__`). -/
def hybridLen (s : HybridState) : Nat := s.urls.length

/-! ## The pattern classifier and the pattern-prioritizing queue -/

/-- Token runs for `patternize`, fuel-indexed so the definition reduces in
the kernel; the fuel is always at least the length of the character list. -/
def patRunsGo : Nat → List Char → List String
  | 0, _ => []
  | _, [] => []
  | fuel + 1, c :: cs =>
    if c.isDigit then "<num>" :: patRunsGo fuel (cs.dropWhile Char.isDigit)
    else if c.isAlpha then "<word>" :: patRunsGo fuel (cs.dropWhile Char.isAlpha)
    else String.singleton c :: patRunsGo fuel cs

/-- Modelled from the spec: the external `patternize` module imported by
spider.py is not part of this repository.  Per the spec it maps a path
segment to a canonical shape token, collapsing digit runs to one numeric
token and alphabetic runs to one word token, so structurally similar
segments such as `42` and `17` get the same token while the shapes of
distinct literal segments stay apart. -/
def patternize (s : String) : String :=
  String.join (patRunsGo s.toList.length s.toList)

/-- Python `posixpath.normpath` for the relative paths spider.py feeds it
(`make_pattern` strips leading and trailing slashes first, so the
absolute-path branches of the original never trigger): drop empty and `.`
components, resolve `..` against a previous component, rejoin with `/`,
empty result becomes `.`. -/
def pyNormpath (path : String) : String :=
  if path = "" then "." else
    let comps := (splitOnChar '/' path.toList).map List.asString
    let newComps := comps.foldl (fun acc comp =>
      if comp = "" ∨ comp = "." then acc
      else if comp ≠ ".." ∨ acc = [] ∨ acc.getLast? = some ".." then acc ++ [comp]
      else acc.dropLast) []
    let p := String.intercalate "/" newComps
    if p = "" then "." else p

/-- `PatternPrioritizingUrlQueue.make_pattern`: strip slashes from
`urlparse(s).path`; empty path gives the empty pattern; otherwise normalize,
split on `/`, keep the first segment verbatim and `patternize` the rest. -/
def make_pattern (s : String) : String :=
  let path := stripChar '/' (pyUrlsplit true s).path
  if path = "" then ""
  else
    let parts := (splitOnChar '/' (pyNormpath path).toList).map List.asString
    String.intercalate "/" (parts.take 1 ++ (parts.drop 1).map patternize)

/-- State of `PatternPrioritizingUrlQueue`: the low-priority list `urls`,
the priority deque `priority_urls`, the dedup set, the first-referrer map,
and the pattern-count dict `known_patterns` (modelled as an association
list with unique keys; a key is only consed on when absent). -/
structure PatternState where
  urls : List String
  priority_urls : List String
  known_urls : List String
  referrers : List (String × Option String)
  known_patterns : List (String × Nat)
deriving DecidableEq

/-- `PatternPrioritizingUrlQueue.__init__`. -/
def patternInit : PatternState := ⟨[], [], [], [], []⟩

/-- Dict lookup `known_patterns.get(pattern)`. -/
def lookupPattern (m : List (String × Nat)) (k : String) : Option Nat :=
  match m.find? (fun p => p.1 = k) with
  | some p => some p.2
  | none => none

/-- Dict update `known_patterns[pattern] += 1` for a present key. -/
def bumpPattern (m : List (String × Nat)) (k : String) : List (String × Nat) :=
  m.map (fun p => if p.1 = k then (p.1, p.2 + 1) else p)

/-- `PatternPrioritizingUrlQueue.append`: early return on a known URL;
otherwise record the URL and its referrer, classify it, and either tail-add
to the low-priority pile with an incremented pattern count (pattern seen) or
tail-add to the priority deque with the pattern count set to 1 (new
pattern). -/
def patternAppend (s : PatternState) (url : String) (referrer : Option String) :
    PatternState :=
  if url ∈ s.known_urls then s
  else
    match lookupPattern s.known_patterns (make_pattern url) with
    | some _ =>
      ⟨s.urls ++ [url], s.priority_urls, url :: s.known_urls,
        (url, referrer) :: s.referrers,
        bumpPattern s.known_patterns (make_pattern url)⟩
    | none =>
      ⟨s.urls, s.priority_urls ++ [url], url :: s.known_urls,
        (url, referrer) :: s.referrers,
        (make_pattern url, 1) :: s.known_patterns⟩

/-- `PatternPrioritizingUrlQueue.extend`: `urls = set(urls)` then
`urls = sorted(urls, key=..., reverse=True)` rebind a local name, so the
caller's list is returned unmodified in the second component.  The iteration
order of the Python set is unspecified; it is modelled by `List.dedup`, and
no theorem below depends on that choice. -/
def patternExtendP (s : PatternState) (urls : List String)
    (referrer : Option String) : PatternState × List String :=
  let batch := sortByKeyDesc countSlash urls.dedup
  (batch.foldl (fun t u => patternAppend t u referrer) s, urls)

/-- Queue state after the pattern variant's `extend`. -/
def patternExtend (s : PatternState) (urls : List String)
    (referrer : Option String) : PatternState :=
  (patternExtendP s urls referrer).1

/-- `PatternPrioritizingUrlQueue.pop`: tail-remove from the priority deque
when it is non-empty, otherwise fall back to `RandomizingUrlQueue.pop` on
the low-priority list (`i` is the random oracle as in `randomPop`). -/
def patternPop (i : Nat) (s : PatternState) : Option (String × PatternState) :=
  match s.priority_urls.getLast? with
  | some u =>
    some (u, ⟨s.urls, s.priority_urls.dropLast, s.known_urls, s.referrers,
      s.known_patterns⟩)
  | none =>
    if h : s.urls.length = 0 then none
    else
      let j : Fin s.urls.length :=
        ⟨i % s.urls.length, Nat.mod_lt i (Nat.pos_of_ne_zero h)⟩
      some (s.urls.get j, ⟨s.urls.eraseIdx j.val, s.priority_urls,
        s.known_urls, s.referrers, s.known_patterns⟩)

/-- `PatternPrioritizingUrlQueue.__len__`. -/
def patternLen (s : PatternState) : Nat :=
  s.urls.length + s.priority_urls.length

/-- The pending URLs of the pattern queue across both partitions. -/
def patternPending (s : PatternState) : List String :=
  s.priority_urls ++ s.urls

/-! ## The link filter (`Spider.filter_links`) -/

/-- One candidate link as produced by `lxml`'s `iterlinks()`: element tag,
attribute name, absolute URL (the position member is never read). -/
structure LinkTuple where
  tag : String
  attr : String
  link : String
deriving DecidableEq

/-- The spider options consumed by `filter_links`, plus `base_url` and
`domain` computed in `Spider.__init__`.  Compiled accept/reject regexes are
abstracted as match predicates (`regex.search(link)` as a Boolean). -/
structure FilterCfg where
  base_url : String
  domain : String
  span_hosts : Bool
  no_parent : Bool
  page_requisites : Bool
  accept : List (String → Bool)
  reject : List (String → Bool)

/-- The accept/reject stage of `Spider.filter_links`: `skip` starts true
exactly when accept patterns are configured, the accept loop clears it on
the first accept match, the reject loop then sets it on the first reject
match; the link survives the stage when the final `skip` is false. -/
def acceptRejectSkip (accept reject : List (String → Bool)) (link : String) :
    Bool :=
  let skip := !accept.isEmpty
  let skip := if accept.any (fun r => r link) then false else skip
  if reject.any (fun r => r link) then true else skip

/-- One iteration of the `Spider.filter_links` loop: normalize the link,
then the domain-scope check, then the accept/reject stage, then the role
filter (`a` tags subject to `--no-parent`, `form action` always dropped,
anything else only under `--page-requisites`).  `none` models `continue`,
`some` models `yield`. -/
def filterOne (cfg : FilterCfg) (t : LinkTuple) : Option String :=
  let parts := pyUrlsplit false t.link
  let link := normalizeLink t.link
  if cfg.span_hosts = false ∧ parts.netloc ≠ cfg.domain then none
  else if acceptRejectSkip cfg.accept cfg.reject link = true then none
  else if t.tag = "a" then
    (if cfg.no_parent = true ∧ hasStart link cfg.base_url = false then none
     else some link)
  else if t.tag = "form" ∧ t.attr = "action" then none
  else if cfg.page_requisites = true then some link
  else none

/-- `Spider.filter_links` over a whole batch (the generator, run to a list). -/
def filterLinks (cfg : FilterCfg) (links : List LinkTuple) : List String :=
  links.filterMap (filterOne cfg)

/-- A permissive configuration for concrete filter runs: seed
`http://x/`, same-host only, no accept/reject patterns, no `--no-parent`,
no `--page-requisites`. -/
def cfgX : FilterCfg := ⟨"http://x/", "x", false, false, false, [], []⟩

/-! ## The crawl driver (`Spider.crawl`) -/

/-- What the external transport reports for one URL: a connection-level
failure (the `AttributeError` branch of `Spider.crawl`) or a completed
fetch carrying the optional `content-location` of a followed redirect and
the already-filtered links extracted from the body (the transport, HTML
parser and `get_urls`/`filter_links` collaborators are folded into this
oracle; the driver's counting and stopping logic is what is modelled). -/
inductive FetchResult where
  | connFail
  | ok (contentLocation : Option String) (links : List String)

/-- The spider options read by the crawl loop. -/
structure CrawlCfg where
  max_requests : Nat
  recursive : Bool

/-- Driver state: the frontier (the default breadth-first `FifoUrlQueue`)
and `self.fetchcount`. -/
structure CrawlState where
  queue : FifoState
  fetchcount : Nat
deriving DecidableEq

/-- `Spider.crawl`, fuel-indexed: pop while the frontier is non-empty; a
connection failure abandons the URL without incrementing `fetchcount`; a
completed fetch increments it, substitutes a reported `content-location`
for the URL, then checks `max_requests` (0 disables the check) BEFORE any
link extraction, and only then, when `--recursive`, extends the frontier
with the filtered links.  The Boolean is true when the loop exited (frontier
empty or limit reached) and false when the fuel ran out first. -/
def crawl (cfg : CrawlCfg) (tr : String → FetchResult) :
    Nat → CrawlState → CrawlState × Bool
  | 0, s => (s, false)
  | fuel + 1, s =>
    match fifoPop s.queue with
    | none => (s, true)
    | some (url, q) =>
      match tr url with
      | .connFail => crawl cfg tr fuel ⟨q, s.fetchcount⟩
      | .ok cloc links =>
        if cfg.max_requests ≠ 0 ∧ cfg.max_requests ≤ s.fetchcount + 1 then
          (⟨q, s.fetchcount + 1⟩, true)
        else if cfg.recursive = true then
          crawl cfg tr fuel
            ⟨fifoExtend q links (some (cloc.getD url)), s.fetchcount + 1⟩
        else crawl cfg tr fuel ⟨q, s.fetchcount + 1⟩

/-! ## Call sequences against a frontier (for the dedup invariant) -/

/-- One frontend call to a frontier: `append(url, referrer)` or
`extend(urls, referrer)`. -/
inductive FrontierOp where
  | app (url : String) (referrer : Option String)
  | ext (urls : List String) (referrer : Option String)

/-- The URL values passed to a call. -/
def opUrls : FrontierOp → List String
  | .app u _ => [u]
  | .ext us _ => us

/-- All URL values passed across a call sequence. -/
def opsUrls (ops : List FrontierOp) : List String :=
  (ops.map opUrls).flatten

/-- Apply one call to a `FifoUrlQueue` (also `RandomizingUrlQueue`, which
inherits both methods). -/
def fifoStep (s : FifoState) : FrontierOp → FifoState
  | .app u r => fifoAppend s u r
  | .ext us r => fifoExtend s us r

/-- Run a call sequence against a fresh `FifoUrlQueue`. -/
def fifoRun (ops : List FrontierOp) : FifoState :=
  ops.foldl fifoStep fifoInit

/-- Apply one call to a `DepthFirstQueue`. -/
def depthStep (s : FifoState) : FrontierOp → FifoState
  | .app u r => fifoAppend s u r
  | .ext us r => depthExtend s us r

/-- Run a call sequence against a fresh `DepthFirstQueue`. -/
def depthRun (ops : List FrontierOp) : FifoState :=
  ops.foldl depthStep fifoInit

/-- Apply one call to a `HybridTraverseQueue`. -/
def hybridStep (s : HybridState) : FrontierOp → HybridState
  | .app u r => hybridAppend s u r
  | .ext us r => hybridExtend s us r

/-- Run a call sequence against a fresh `HybridTraverseQueue`. -/
def hybridRun (ops : List FrontierOp) : HybridState :=
  ops.foldl hybridStep hybridInit

/-- Apply one call to a `PatternPrioritizingUrlQueue`. -/
def patternStep (s : PatternState) : FrontierOp → PatternState
  | .app u r => patternAppend s u r
  | .ext us r => patternExtend s us r

/-- Run a call sequence against a fresh `PatternPrioritizingUrlQueue`. -/
def patternRun (ops : List FrontierOp) : PatternState :=
  ops.foldl patternStep patternInit

/-- Successive pops of a hybrid queue, as a list of popped URLs (stops at
the first failing pop). -/
def hybridPopList : Nat → HybridState → List String
  | 0, _ => []
  | n + 1, s =>
    match hybridPop s with
    | none => []
    | some (u, s2) => u :: hybridPopList n s2

/-- A transport describing an unbounded chain of pages: every page links to
one fresh page (its URL with an `x` appended). -/
def chainSite : String → FetchResult := fun u => .ok none [u ++ "x"]

/-- The driver state right after `Spider.__init__`: the seed URL appended
to a fresh frontier, `fetchcount = 0`. -/
def seedState (seed : String) : CrawlState := ⟨fifoAppend fifoInit seed none, 0⟩

/-- A small site where one of the three pages fails at the connection
level: the seed links to `f` (connection failure) and `a` (a leaf). -/
def failSite : String → FetchResult := fun u =>
  if u = "s" then .ok none ["f", "a"]
  else if u = "f" then .connFail
  else .ok none []

/-! ## Supporting lemmas -/

theorem mem_insertByKey (key : String → Nat) (x a : String) :
    ∀ l : List String, a ∈ insertByKey key x l ↔ a = x ∨ a ∈ l := by
  intro l
  induction l with
  | nil => simp [insertByKey]
  | cons y ys ih =>
    simp only [insertByKey]
    split
    · simp [List.mem_cons]
    · rw [List.mem_cons, ih, List.mem_cons]
      tauto

theorem mem_insertFold (key : String → Nat) (a : String) :
    ∀ (l acc : List String),
      a ∈ l.foldl (fun acc x => insertByKey key x acc) acc ↔ a ∈ acc ∨ a ∈ l := by
  intro l
  induction l with
  | nil => simp
  | cons x xs ih =>
    intro acc
    simp only [List.foldl_cons]
    rw [ih, mem_insertByKey, List.mem_cons]
    tauto

theorem mem_sortByKey (key : String → Nat) (a : String) (l : List String) :
    a ∈ sortByKey key l ↔ a ∈ l := by
  unfold sortByKey
  rw [mem_insertFold]
  simp

theorem mem_insertByKeyDesc (key : String → Nat) (x a : String) :
    ∀ l : List String, a ∈ insertByKeyDesc key x l ↔ a = x ∨ a ∈ l := by
  intro l
  induction l with
  | nil => simp [insertByKeyDesc]
  | cons y ys ih =>
    simp only [insertByKeyDesc]
    split
    · simp [List.mem_cons]
    · rw [List.mem_cons, ih, List.mem_cons]
      tauto

theorem mem_insertFoldDesc (key : String → Nat) (a : String) :
    ∀ (l acc : List String),
      a ∈ l.foldl (fun acc x => insertByKeyDesc key x acc) acc ↔
        a ∈ acc ∨ a ∈ l := by
  intro l
  induction l with
  | nil => simp
  | cons x xs ih =>
    intro acc
    simp only [List.foldl_cons]
    rw [ih, mem_insertByKeyDesc, List.mem_cons]
    tauto

theorem mem_sortByKeyDesc (key : String → Nat) (a : String) (l : List String) :
    a ∈ sortByKeyDesc key l ↔ a ∈ l := by
  unfold sortByKeyDesc
  rw [mem_insertFoldDesc]
  simp

theorem toFinset_sortByKey (key : String → Nat) (l : List String) :
    (sortByKey key l).toFinset = l.toFinset := by
  apply Finset.ext
  simp [List.mem_toFinset, mem_sortByKey]

theorem toFinset_sortByKeyDesc (key : String → Nat) (l : List String) :
    (sortByKeyDesc key l).toFinset = l.toFinset := by
  apply Finset.ext
  simp [List.mem_toFinset, mem_sortByKeyDesc]

theorem hashHeadList_hash_free : ∀ cs : List Char,
    (hashHeadList cs).contains '#' = false := by
  intro cs
  induction cs with
  | nil => rfl
  | cons c rest ih =>
    unfold hashHeadList splitAtFirst
    split
    · rfl
    · next hne =>
      have hc : c ≠ '#' := by
        intro h
        exact hne (by simp [h])
      have ih2 : '#' ∉ (splitAtFirst ['#'] rest).1 := by
        simpa [hashHeadList, List.contains] using ih
      simp [List.contains]
      exact ⟨fun h => hc h.symm, ih2⟩

/-! ## C1: hybrid pop order -/

/-- Claim C1 (counterexample): after appending `a`, `b`, `c`, `d` to a
hybrid frontier, the four pops return `a, d, b, c` — the first pop is a
HEAD-remove, not the tail-remove the claim states (`HybridTraverseQueue.pop`
toggles `self.next` before calling it, so the initial `self.next =
self.urls.pop` makes the first executed removal `popleft`).  The popped
sequence differs from the claimed `d, a, c, b`. -/
theorem hybrid_pop_starts_tail_counterexample :
    hybridPopList 4 (hybridAppend (hybridAppend (hybridAppend
      (hybridAppend hybridInit "a" none) "b" none) "c" none) "d" none) =
      ["a", "d", "b", "c"] ∧
    (["a", "d", "b", "c"] : List String) ≠ ["d", "a", "c", "b"] := by
  decide

/-- Claim C1 (amended): consecutive `pop()` calls of the hybrid frontier
alternate between head-remove and tail-remove starting with HEAD-remove:
after appending `a, b, c, d` the pops return `a` (head), `d` (tail), `b`
(head), `c` (tail); every successful pop flips the toggle, and the removal
side is head exactly when `self.next == self.urls.pop` held on entry. -/
theorem hybrid_pop_alternation :
    hybridPopList 4 (hybridAppend (hybridAppend (hybridAppend
      (hybridAppend hybridInit "a" none) "b" none) "c" none) "d" none) =
      ["a", "d", "b", "c"] ∧
    (∀ s u s2, hybridPop s = some (u, s2) → s2.nextIsPop = !s.nextIsPop) ∧
    (∀ s u s2, hybridPop s = some (u, s2) →
      (if s.nextIsPop then s.urls.head? = some u
       else s.urls.getLast? = some u)) := by
  refine ⟨by decide, ?_, ?_⟩
  · intro s u s2 h
    unfold hybridPop at h
    split at h
    · split at h
      · exact absurd h (by simp)
      · simp only [Option.some.injEq, Prod.mk.injEq] at h
        obtain ⟨rfl, rfl⟩ := h
        simp_all
    · split at h
      · exact absurd h (by simp)
      · simp only [Option.some.injEq, Prod.mk.injEq] at h
        obtain ⟨rfl, rfl⟩ := h
        simp_all
  · intro s u s2 h
    unfold hybridPop at h
    split at h
    · split at h
      · exact absurd h (by simp)
      · simp only [Option.some.injEq, Prod.mk.injEq] at h
        obtain ⟨rfl, rfl⟩ := h
        simp_all
    · split at h
      · exact absurd h (by simp)
      · simp only [Option.some.injEq, Prod.mk.injEq] at h
        obtain ⟨rfl, rfl⟩ := h
        simp_all

/-- Concrete instance of the alternation contract: a successful pop on a
state whose toggle says "next is tail-pop" flips the toggle. -/
theorem hybrid_pop_alternation_witness :
    (⟨[], ["x"], [("x", none)], false⟩ : HybridState).nextIsPop =
      !(⟨["x"], ["x"], [("x", none)], true⟩ : HybridState).nextIsPop :=
  hybrid_pop_alternation.2.1 ⟨["x"], ["x"], [("x", none)], true⟩ "x"
    ⟨[], ["x"], [("x", none)], false⟩ rfl

/-! ## C2: fragment stripping in the link filter -/

/-- Claim C2 (counterexample): the pipeline does NOT strip the fragment
from every candidate link.  With `allow_fragments=False` a `#`-suffix that
follows a `?` lands in the query component, which `filter_links` never
cleans: the link `http://x/a?q=1#frag` passes the filter with its fragment
intact instead of being rebuilt without it. -/
theorem filter_fragment_query_counterexample :
    filterLinks cfgX [⟨"a", "href", "http://x/a?q=1#frag"⟩] =
      ["http://x/a?q=1#frag"] ∧
    normalizeLink "http://x/a?q=1#frag" ≠ "http://x/a?q=1" := by
  decide

/-- Claim C2 (amended): the filter removes any `#`-delimited suffix from
the PATH component (the rebuilt path never contains `#`, so a fragment
that leaks into the path — as in `http://x/a#frag`, which has no query —
is stripped), while a `#`-suffix after a `?` stays in the query component;
when both `http://x/a#frag` and `http://x/a` appear in one batch, both
normalize to `http://x/a`, the filter emits that URL twice, and the
frontier's dedup enqueues it exactly once. -/
theorem filter_fragment_stripping :
    (∀ link : String,
      (hashHeadList (pyUrlsplit false link).path.toList).contains '#' = false) ∧
    normalizeLink "http://x/a#frag" = "http://x/a" ∧
    normalizeLink "http://x/a" = "http://x/a" ∧
    filterLinks cfgX
      [⟨"a", "href", "http://x/a#frag"⟩, ⟨"a", "href", "http://x/a"⟩] =
      ["http://x/a", "http://x/a"] ∧
    (fifoExtend fifoInit
      (filterLinks cfgX
        [⟨"a", "href", "http://x/a#frag"⟩, ⟨"a", "href", "http://x/a"⟩])
      (some "http://x/")).urls = ["http://x/a"] ∧
    (fifoExtend fifoInit
      (filterLinks cfgX
        [⟨"a", "href", "http://x/a#frag"⟩, ⟨"a", "href", "http://x/a"⟩])
      (some "http://x/")).known_urls.length = 1 := by
  exact ⟨fun link => hashHeadList_hash_free _, by decide, by decide, by decide,
    by decide, by decide⟩

/-! ## Known-set lemmas for the dedup invariant -/

theorem opsUrls_cons (op : FrontierOp) (ops : List FrontierOp) :
    opsUrls (op :: ops) = opUrls op ++ opsUrls ops := by
  simp [opsUrls]

theorem fifoAppend_known_toFinset (s : FifoState) (u : String)
    (r : Option String) :
    (fifoAppend s u r).known_urls.toFinset = insert u s.known_urls.toFinset := by
  unfold fifoAppend
  split
  · next h => exact (Finset.insert_eq_self.mpr (List.mem_toFinset.mpr h)).symm
  · simp [List.toFinset_cons]

theorem fifoAppend_known_nodup (s : FifoState) (u : String) (r : Option String)
    (h : s.known_urls.Nodup) : (fifoAppend s u r).known_urls.Nodup := by
  unfold fifoAppend
  split
  · exact h
  · next hmem => exact List.nodup_cons.mpr ⟨hmem, h⟩

theorem fifoAppend_known_mono (s : FifoState) (u : String) (r : Option String)
    (a : String) (h : a ∈ s.known_urls) : a ∈ (fifoAppend s u r).known_urls := by
  unfold fifoAppend
  split
  · exact h
  · exact List.mem_cons_of_mem _ h

theorem fifoFold_known_toFinset (r : Option String) :
    ∀ (us : List String) (s : FifoState),
      ((us.foldl (fun t u => fifoAppend t u r) s).known_urls.toFinset) =
        s.known_urls.toFinset ∪ us.toFinset := by
  intro us
  induction us with
  | nil => intro s; simp
  | cons x xs ih =>
    intro s
    simp only [List.foldl_cons]
    rw [ih, fifoAppend_known_toFinset]
    simp [List.toFinset_cons, Finset.insert_union, Finset.union_insert]

theorem fifoFold_known_nodup (r : Option String) :
    ∀ (us : List String) (s : FifoState), s.known_urls.Nodup →
      ((us.foldl (fun t u => fifoAppend t u r) s).known_urls.Nodup) := by
  intro us
  induction us with
  | nil => intro s h; exact h
  | cons x xs ih =>
    intro s h
    simp only [List.foldl_cons]
    exact ih _ (fifoAppend_known_nodup _ _ _ h)

theorem fifoFold_known_mono (r : Option String) :
    ∀ (us : List String) (s : FifoState) (a : String), a ∈ s.known_urls →
      a ∈ (us.foldl (fun t u => fifoAppend t u r) s).known_urls := by
  intro us
  induction us with
  | nil => intro s a h; exact h
  | cons x xs ih =>
    intro s a h
    simp only [List.foldl_cons]
    exact ih _ _ (fifoAppend_known_mono _ _ _ _ h)

theorem fifoStep_known_toFinset (s : FifoState) (op : FrontierOp) :
    (fifoStep s op).known_urls.toFinset =
      s.known_urls.toFinset ∪ (opUrls op).toFinset := by
  cases op with
  | app u r =>
    simp [fifoStep, opUrls, fifoAppend_known_toFinset, Finset.insert_eq,
      Finset.union_comm]
  | ext us r =>
    unfold fifoStep fifoExtend fifoExtendP opUrls
    exact fifoFold_known_toFinset r us s

theorem depthStep_known_toFinset (s : FifoState) (op : FrontierOp) :
    (depthStep s op).known_urls.toFinset =
      s.known_urls.toFinset ∪ (opUrls op).toFinset := by
  cases op with
  | app u r =>
    simp [depthStep, opUrls, fifoAppend_known_toFinset, Finset.insert_eq,
      Finset.union_comm]
  | ext us r =>
    unfold depthStep depthExtend depthExtendP fifoExtend fifoExtendP opUrls
    rw [fifoFold_known_toFinset, toFinset_sortByKey]

theorem fifoStep_known_nodup (s : FifoState) (op : FrontierOp)
    (h : s.known_urls.Nodup) : (fifoStep s op).known_urls.Nodup := by
  cases op with
  | app u r => exact fifoAppend_known_nodup _ _ _ h
  | ext us r => exact fifoFold_known_nodup _ _ _ h

theorem depthStep_known_nodup (s : FifoState) (op : FrontierOp)
    (h : s.known_urls.Nodup) : (depthStep s op).known_urls.Nodup := by
  cases op with
  | app u r => exact fifoAppend_known_nodup _ _ _ h
  | ext us r => exact fifoFold_known_nodup _ _ _ h

theorem fifoRunAux_known_toFinset :
    ∀ (ops : List FrontierOp) (s : FifoState),
      ((ops.foldl fifoStep s).known_urls.toFinset) =
        s.known_urls.toFinset ∪ (opsUrls ops).toFinset := by
  intro ops
  induction ops with
  | nil => intro s; simp [opsUrls]
  | cons op ops ih =>
    intro s
    simp only [List.foldl_cons]
    rw [ih, fifoStep_known_toFinset, opsUrls_cons, List.toFinset_append,
      Finset.union_assoc]

theorem depthRunAux_known_toFinset :
    ∀ (ops : List FrontierOp) (s : FifoState),
      ((ops.foldl depthStep s).known_urls.toFinset) =
        s.known_urls.toFinset ∪ (opsUrls ops).toFinset := by
  intro ops
  induction ops with
  | nil => intro s; simp [opsUrls]
  | cons op ops ih =>
    intro s
    simp only [List.foldl_cons]
    rw [ih, depthStep_known_toFinset, opsUrls_cons, List.toFinset_append,
      Finset.union_assoc]

theorem fifoRunAux_known_nodup :
    ∀ (ops : List FrontierOp) (s : FifoState), s.known_urls.Nodup →
      ((ops.foldl fifoStep s).known_urls.Nodup) := by
  intro ops
  induction ops with
  | nil => intro s h; exact h
  | cons op ops ih =>
    intro s h
    simp only [List.foldl_cons]
    exact ih _ (fifoStep_known_nodup _ _ h)

theorem depthRunAux_known_nodup :
    ∀ (ops : List FrontierOp) (s : FifoState), s.known_urls.Nodup →
      ((ops.foldl depthStep s).known_urls.Nodup) := by
  intro ops
  induction ops with
  | nil => intro s h; exact h
  | cons op ops ih =>
    intro s h
    simp only [List.foldl_cons]
    exact ih _ (depthStep_known_nodup _ _ h)

theorem nodup_toFinset_len (l ws : List String) (h1 : l.Nodup)
    (h2 : l.toFinset = ws.toFinset) : l.length = ws.dedup.length := by
  have h3 : ws.dedup.toFinset = ws.toFinset := by
    apply Finset.ext
    simp [List.mem_toFinset, List.mem_dedup]
  rw [← List.toFinset_card_of_nodup h1, h2, ← h3,
    List.toFinset_card_of_nodup (List.nodup_dedup ws)]

theorem hybridAppend_known_toFinset (s : HybridState) (u : String)
    (r : Option String) :
    (hybridAppend s u r).known_urls.toFinset =
      insert u s.known_urls.toFinset := by
  unfold hybridAppend
  split
  · next h => exact (Finset.insert_eq_self.mpr (List.mem_toFinset.mpr h)).symm
  · simp [List.toFinset_cons]

theorem hybridAppend_known_nodup (s : HybridState) (u : String)
    (r : Option String) (h : s.known_urls.Nodup) :
    (hybridAppend s u r).known_urls.Nodup := by
  unfold hybridAppend
  split
  · exact h
  · next hmem => exact List.nodup_cons.mpr ⟨hmem, h⟩

theorem hybridAppend_known_mono (s : HybridState) (u : String)
    (r : Option String) (a : String) (h : a ∈ s.known_urls) :
    a ∈ (hybridAppend s u r).known_urls := by
  unfold hybridAppend
  split
  · exact h
  · exact List.mem_cons_of_mem _ h

theorem hybridFold_known_toFinset (r : Option String) :
    ∀ (us : List String) (s : HybridState),
      ((us.foldl (fun t u => hybridAppend t u r) s).known_urls.toFinset) =
        s.known_urls.toFinset ∪ us.toFinset := by
  intro us
  induction us with
  | nil => intro s; simp
  | cons x xs ih =>
    intro s
    simp only [List.foldl_cons]
    rw [ih, hybridAppend_known_toFinset]
    simp [List.toFinset_cons, Finset.insert_union, Finset.union_insert]

theorem hybridFold_known_nodup (r : Option String) :
    ∀ (us : List String) (s : HybridState), s.known_urls.Nodup →
      ((us.foldl (fun t u => hybridAppend t u r) s).known_urls.Nodup) := by
  intro us
  induction us with
  | nil => intro s h; exact h
  | cons x xs ih =>
    intro s h
    simp only [List.foldl_cons]
    exact ih _ (hybridAppend_known_nodup _ _ _ h)

theorem hybridFold_known_mono (r : Option String) :
    ∀ (us : List String) (s : HybridState) (a : String), a ∈ s.known_urls →
      a ∈ (us.foldl (fun t u => hybridAppend t u r) s).known_urls := by
  intro us
  induction us with
  | nil => intro s a h; exact h
  | cons x xs ih =>
    intro s a h
    simp only [List.foldl_cons]
    exact ih _ _ (hybridAppend_known_mono _ _ _ _ h)

theorem hybridStep_known_toFinset (s : HybridState) (op : FrontierOp) :
    (hybridStep s op).known_urls.toFinset =
      s.known_urls.toFinset ∪ (opUrls op).toFinset := by
  cases op with
  | app u r =>
    simp [hybridStep, opUrls, hybridAppend_known_toFinset, Finset.insert_eq,
      Finset.union_comm]
  | ext us r =>
    unfold hybridStep hybridExtend hybridExtendP opUrls
    rw [hybridFold_known_toFinset, toFinset_sortByKey]

theorem hybridStep_known_nodup (s : HybridState) (op : FrontierOp)
    (h : s.known_urls.Nodup) : (hybridStep s op).known_urls.Nodup := by
  cases op with
  | app u r => exact hybridAppend_known_nodup _ _ _ h
  | ext us r => exact hybridFold_known_nodup _ _ _ h

theorem hybridRunAux_known_toFinset :
    ∀ (ops : List FrontierOp) (s : HybridState),
      ((ops.foldl hybridStep s).known_urls.toFinset) =
        s.known_urls.toFinset ∪ (opsUrls ops).toFinset := by
  intro ops
  induction ops with
  | nil => intro s; simp [opsUrls]
  | cons op ops ih =>
    intro s
    simp only [List.foldl_cons]
    rw [ih, hybridStep_known_toFinset, opsUrls_cons, List.toFinset_append,
      Finset.union_assoc]

theorem hybridRunAux_known_nodup :
    ∀ (ops : List FrontierOp) (s : HybridState), s.known_urls.Nodup →
      ((ops.foldl hybridStep s).known_urls.Nodup) := by
  intro ops
  induction ops with
  | nil => intro s h; exact h
  | cons op ops ih =>
    intro s h
    simp only [List.foldl_cons]
    exact ih _ (hybridStep_known_nodup _ _ h)

theorem patternAppend_known_toFinset (s : PatternState) (u : String)
    (r : Option String) :
    (patternAppend s u r).known_urls.toFinset =
      insert u s.known_urls.toFinset := by
  unfold patternAppend
  split
  · next h => exact (Finset.insert_eq_self.mpr (List.mem_toFinset.mpr h)).symm
  · split <;> simp [List.toFinset_cons]

theorem patternAppend_known_nodup (s : PatternState) (u : String)
    (r : Option String) (h : s.known_urls.Nodup) :
    (patternAppend s u r).known_urls.Nodup := by
  unfold patternAppend
  split
  · exact h
  · next hmem => split <;> exact List.nodup_cons.mpr ⟨hmem, h⟩

theorem patternAppend_known_mono (s : PatternState) (u : String)
    (r : Option String) (a : String) (h : a ∈ s.known_urls) :
    a ∈ (patternAppend s u r).known_urls := by
  unfold patternAppend
  split
  · exact h
  · split <;> exact List.mem_cons_of_mem _ h

theorem patternFold_known_toFinset (r : Option String) :
    ∀ (us : List String) (s : PatternState),
      ((us.foldl (fun t u => patternAppend t u r) s).known_urls.toFinset) =
        s.known_urls.toFinset ∪ us.toFinset := by
  intro us
  induction us with
  | nil => intro s; simp
  | cons x xs ih =>
    intro s
    simp only [List.foldl_cons]
    rw [ih, patternAppend_known_toFinset]
    simp [List.toFinset_cons, Finset.insert_union, Finset.union_insert]

theorem patternFold_known_nodup (r : Option String) :
    ∀ (us : List String) (s : PatternState), s.known_urls.Nodup →
      ((us.foldl (fun t u => patternAppend t u r) s).known_urls.Nodup) := by
  intro us
  induction us with
  | nil => intro s h; exact h
  | cons x xs ih =>
    intro s h
    simp only [List.foldl_cons]
    exact ih _ (patternAppend_known_nodup _ _ _ h)

theorem patternFold_known_mono (r : Option String) :
    ∀ (us : List String) (s : PatternState) (a : String), a ∈ s.known_urls →
      a ∈ (us.foldl (fun t u => patternAppend t u r) s).known_urls := by
  intro us
  induction us with
  | nil => intro s a h; exact h
  | cons x xs ih =>
    intro s a h
    simp only [List.foldl_cons]
    exact ih _ _ (patternAppend_known_mono _ _ _ _ h)

theorem toFinset_dedup_sortDesc (key : String → Nat) (l : List String) :
    (sortByKeyDesc key l.dedup).toFinset = l.toFinset := by
  rw [toFinset_sortByKeyDesc]
  apply Finset.ext
  simp [List.mem_toFinset, List.mem_dedup]

theorem patternStep_known_toFinset (s : PatternState) (op : FrontierOp) :
    (patternStep s op).known_urls.toFinset =
      s.known_urls.toFinset ∪ (opUrls op).toFinset := by
  cases op with
  | app u r =>
    simp [patternStep, opUrls, patternAppend_known_toFinset, Finset.insert_eq,
      Finset.union_comm]
  | ext us r =>
    unfold patternStep patternExtend patternExtendP opUrls
    rw [patternFold_known_toFinset, toFinset_dedup_sortDesc]

theorem patternStep_known_nodup (s : PatternState) (op : FrontierOp)
    (h : s.known_urls.Nodup) : (patternStep s op).known_urls.Nodup := by
  cases op with
  | app u r => exact patternAppend_known_nodup _ _ _ h
  | ext us r => exact patternFold_known_nodup _ _ _ h

theorem patternRunAux_known_toFinset :
    ∀ (ops : List FrontierOp) (s : PatternState),
      ((ops.foldl patternStep s).known_urls.toFinset) =
        s.known_urls.toFinset ∪ (opsUrls ops).toFinset := by
  intro ops
  induction ops with
  | nil => intro s; simp [opsUrls]
  | cons op ops ih =>
    intro s
    simp only [List.foldl_cons]
    rw [ih, patternStep_known_toFinset, opsUrls_cons, List.toFinset_append,
      Finset.union_assoc]

theorem patternRunAux_known_nodup :
    ∀ (ops : List FrontierOp) (s : PatternState), s.known_urls.Nodup →
      ((ops.foldl patternStep s).known_urls.Nodup) := by
  intro ops
  induction ops with
  | nil => intro s h; exact h
  | cons op ops ih =>
    intro s h
    simp only [List.foldl_cons]
    exact ih _ (patternStep_known_nodup _ _ h)

/-! ## C3: the dedup invariant -/

/-- Claim C3 (confirmed): for every frontier variant and every finite
sequence of `append`/`extend` calls, the known-URL set afterwards has
exactly one entry per distinct URL value ever passed in, however often a
URL is repeated; and one call never removes anything from the known set.
`fifoRun`/`fifoStep` cover both `FifoUrlQueue` and `RandomizingUrlQueue`,
which inherit `append`/`extend` unchanged. -/
theorem frontier_dedup_invariant :
    (∀ ops, (fifoRun ops).known_urls.length = (opsUrls ops).dedup.length) ∧
    (∀ ops, (depthRun ops).known_urls.length = (opsUrls ops).dedup.length) ∧
    (∀ ops, (hybridRun ops).known_urls.length = (opsUrls ops).dedup.length) ∧
    (∀ ops, (patternRun ops).known_urls.length = (opsUrls ops).dedup.length) ∧
    (∀ s op a, a ∈ s.known_urls → a ∈ (fifoStep s op).known_urls) ∧
    (∀ s op a, a ∈ s.known_urls → a ∈ (depthStep s op).known_urls) ∧
    (∀ s op a, a ∈ s.known_urls → a ∈ (hybridStep s op).known_urls) ∧
    (∀ s op a, a ∈ s.known_urls → a ∈ (patternStep s op).known_urls) := by
  refine ⟨?_, ?_, ?_, ?_, ?_, ?_, ?_, ?_⟩
  · intro ops
    apply nodup_toFinset_len
    · exact fifoRunAux_known_nodup ops fifoInit List.nodup_nil
    · unfold fifoRun
      rw [fifoRunAux_known_toFinset]
      simp [fifoInit]
  · intro ops
    apply nodup_toFinset_len
    · exact depthRunAux_known_nodup ops fifoInit List.nodup_nil
    · unfold depthRun
      rw [depthRunAux_known_toFinset]
      simp [fifoInit]
  · intro ops
    apply nodup_toFinset_len
    · exact hybridRunAux_known_nodup ops hybridInit List.nodup_nil
    · unfold hybridRun
      rw [hybridRunAux_known_toFinset]
      simp [hybridInit]
  · intro ops
    apply nodup_toFinset_len
    · exact patternRunAux_known_nodup ops patternInit List.nodup_nil
    · unfold patternRun
      rw [patternRunAux_known_toFinset]
      simp [patternInit]
  · intro s op a h
    cases op with
    | app u r => exact fifoAppend_known_mono _ _ _ _ h
    | ext us r => exact fifoFold_known_mono _ _ _ _ h
  · intro s op a h
    cases op with
    | app u r => exact fifoAppend_known_mono _ _ _ _ h
    | ext us r => exact fifoFold_known_mono _ _ _ _ h
  · intro s op a h
    cases op with
    | app u r => exact hybridAppend_known_mono _ _ _ _ h
    | ext us r => exact hybridFold_known_mono _ _ _ _ h
  · intro s op a h
    cases op with
    | app u r => exact patternAppend_known_mono _ _ _ _ h
    | ext us r => exact patternFold_known_mono _ _ _ _ h

/-- Concrete instance of the dedup invariant: a sequence with three calls
passing five URL values, two of them duplicated, leaves exactly three known
URLs in every variant, and the monotonicity conjunct applied to a concrete
state. -/
theorem frontier_dedup_invariant_witness :
    (fifoRun [.app "a" none, .ext ["b", "a"] none, .app "b" none]).known_urls.length =
      (opsUrls [.app "a" none, .ext ["b", "a"] none, .app "b" none]).dedup.length ∧
    "a" ∈ (patternStep ⟨[], [], ["a"], [("a", none)], [("a", 1)]⟩
      (.ext ["b"] none)).known_urls :=
  ⟨frontier_dedup_invariant.1 _,
    frontier_dedup_invariant.2.2.2.2.2.2.2
      ⟨[], [], ["a"], [("a", none)], [("a", 1)]⟩ (.ext ["b"] none) "a"
      (by simp)⟩

/-! ## C4: the accept/reject stage -/

/-- Claim C4 (confirmed): in the accept/reject stage of `filter_links`, a
link matching both an accept and a reject pattern is rejected (the reject
loop runs after the accept loop and overrides it); with accept patterns
configured, a link matching none of them is rejected; with no accept
patterns configured, the stage's verdict is exactly "reject iff some reject
pattern matches". -/
theorem accept_reject_stage :
    (∀ (accept reject : List (String → Bool)) (link : String),
      accept.any (fun r => r link) = true →
      reject.any (fun r => r link) = true →
        acceptRejectSkip accept reject link = true) ∧
    (∀ (accept reject : List (String → Bool)) (link : String),
      accept ≠ [] → accept.any (fun r => r link) = false →
        acceptRejectSkip accept reject link = true) ∧
    (∀ (reject : List (String → Bool)) (link : String),
      acceptRejectSkip [] reject link = reject.any (fun r => r link)) := by
  refine ⟨?_, ?_, ?_⟩
  · intro accept reject link ha hr
    simp [acceptRejectSkip, ha, hr]
  · intro accept reject link hne ha
    have h1 : accept.isEmpty = false := by
      cases accept with
      | nil => exact absurd rfl hne
      | cons a as => rfl
    cases hr : reject.any (fun r => r link) <;>
      simp [acceptRejectSkip, ha, h1, hr]
  · intro reject link
    cases hr : reject.any (fun r => r link) <;>
      simp [acceptRejectSkip, hr]

/-- Concrete instances of the accept/reject stage contract: a link matched
by both pattern kinds is rejected, and a link matching no accept pattern is
rejected when accept patterns exist. -/
theorem accept_reject_stage_witness :
    acceptRejectSkip [fun _ => true] [fun _ => true] "http://x/a" = true ∧
    acceptRejectSkip [fun _ => false] [] "http://x/a" = true :=
  ⟨accept_reject_stage.1 [fun _ => true] [fun _ => true] "http://x/a" rfl rfl,
    accept_reject_stage.2.1 [fun _ => false] [] "http://x/a" (by simp) rfl⟩

/-! ## C5: depth-first extend pre-sort -/

/-- Claim C5 (confirmed): `DepthFirstQueue.extend` sorts the batch
ascending by `'/'` count (the code's measure of path-segment depth) before
tail-insertion, so extending with `["/x/y", "/z"]` inserts `/z` first; the
LIFO pop then yields `/x/y` first and `/z` second. -/
theorem depth_first_extend_presort (s : FifoState)
    (h1 : "/x/y" ∉ s.known_urls) (h2 : "/z" ∉ s.known_urls) :
    depthExtend s ["/x/y", "/z"] none =
      ⟨s.urls ++ ["/z", "/x/y"], "/x/y" :: "/z" :: s.known_urls,
        ("/x/y", none) :: ("/z", none) :: s.referrers⟩ ∧
    depthPop (depthExtend s ["/x/y", "/z"] none) =
      some ("/x/y", ⟨s.urls ++ ["/z"], "/x/y" :: "/z" :: s.known_urls,
        ("/x/y", none) :: ("/z", none) :: s.referrers⟩) ∧
    depthPop (⟨s.urls ++ ["/z"], "/x/y" :: "/z" :: s.known_urls,
        ("/x/y", none) :: ("/z", none) :: s.referrers⟩ : FifoState) =
      some ("/z", ⟨s.urls, "/x/y" :: "/z" :: s.known_urls,
        ("/x/y", none) :: ("/z", none) :: s.referrers⟩) := by
  have hm : "/x/y" ∉ ("/z" :: s.known_urls) := by
    intro hmem
    rcases List.mem_cons.mp hmem with h | h
    · exact absurd h (by decide)
    · exact h1 h
  have e1 : sortByKey countSlash ["/x/y", "/z"] = ["/z", "/x/y"] := by decide
  have e2 : depthExtend s ["/x/y", "/z"] none =
      ⟨s.urls ++ ["/z", "/x/y"], "/x/y" :: "/z" :: s.known_urls,
        ("/x/y", none) :: ("/z", none) :: s.referrers⟩ := by
    have a1 : fifoAppend s "/z" none =
        ⟨s.urls ++ ["/z"], "/z" :: s.known_urls, ("/z", none) :: s.referrers⟩ := by
      unfold fifoAppend
      rw [if_neg h2]
    unfold depthExtend depthExtendP fifoExtend fifoExtendP
    rw [e1]
    simp only [List.foldl_cons, List.foldl_nil]
    rw [a1]
    unfold fifoAppend
    rw [if_neg hm]
    simp
  refine ⟨e2, ?_, ?_⟩
  · rw [e2]
    have ha : s.urls ++ ["/z", "/x/y"] = (s.urls ++ ["/z"]) ++ ["/x/y"] := by
      simp
    unfold depthPop
    rw [ha, List.getLast?_concat, List.dropLast_concat]
  · unfold depthPop
    rw [List.getLast?_concat, List.dropLast_concat]

/-- Concrete instance of the depth-first pre-sort on a fresh queue. -/
theorem depth_first_extend_presort_witness :
    depthExtend fifoInit ["/x/y", "/z"] none =
      ⟨["/z", "/x/y"], ["/x/y", "/z"], [("/x/y", none), ("/z", none)]⟩ ∧
    depthPop (depthExtend fifoInit ["/x/y", "/z"] none) =
      some ("/x/y", ⟨["/z"], ["/x/y", "/z"], [("/x/y", none), ("/z", none)]⟩) ∧
    depthPop (⟨["/z"], ["/x/y", "/z"], [("/x/y", none), ("/z", none)]⟩ :
        FifoState) =
      some ("/z", ⟨[], ["/x/y", "/z"], [("/x/y", none), ("/z", none)]⟩) :=
  depth_first_extend_presort fifoInit (by decide) (by decide)

/-! ## C6: pattern-novelty prioritization -/

theorem lookupPattern_bump (k : String) :
    ∀ (m : List (String × Nat)) (n : Nat),
      lookupPattern m k = some n →
      lookupPattern (bumpPattern m k) k = some (n + 1) := by
  intro m
  induction m with
  | nil => intro n h; simp [lookupPattern] at h
  | cons p ps ih =>
    intro n h
    by_cases hk : p.1 = k
    · simp [lookupPattern, bumpPattern, List.find?_cons, hk] at h ⊢
      omega
    · have hb : bumpPattern (p :: ps) k = p :: bumpPattern ps k := by
        simp [bumpPattern, hk]
      have h2 : lookupPattern ps k = some n := by
        simpa [lookupPattern, List.find?_cons, hk] using h
      rw [hb]
      simpa [lookupPattern, List.find?_cons, hk] using ih n h2

/-- Claim C6 (confirmed): `PatternPrioritizingUrlQueue.append` puts a URL
with an unseen pattern into the priority partition and records the pattern
with count 1; a URL with a seen pattern goes to the low-priority partition
and the count is incremented.  After appending `/blog/1`, `/blog/2`,
`/about`, the priority partition is exactly `[/blog/1, /about]`, `/blog/2`
is low-priority, and the shared blog pattern has count 2. -/
theorem pattern_priority_append :
    (∀ (s : PatternState) (url : String) (r : Option String),
      url ∉ s.known_urls →
      lookupPattern s.known_patterns (make_pattern url) = none →
        patternAppend s url r =
          ⟨s.urls, s.priority_urls ++ [url], url :: s.known_urls,
            (url, r) :: s.referrers,
            (make_pattern url, 1) :: s.known_patterns⟩) ∧
    (∀ (s : PatternState) (url : String) (r : Option String) (n : Nat),
      url ∉ s.known_urls →
      lookupPattern s.known_patterns (make_pattern url) = some n →
        patternAppend s url r =
          ⟨s.urls ++ [url], s.priority_urls, url :: s.known_urls,
            (url, r) :: s.referrers,
            bumpPattern s.known_patterns (make_pattern url)⟩ ∧
        lookupPattern (patternAppend s url r).known_patterns
          (make_pattern url) = some (n + 1)) ∧
    ((patternAppend (patternAppend (patternAppend patternInit "/blog/1" none)
        "/blog/2" none) "/about" none).priority_urls =
          ["/blog/1", "/about"] ∧
      (patternAppend (patternAppend (patternAppend patternInit "/blog/1" none)
        "/blog/2" none) "/about" none).urls = ["/blog/2"] ∧
      lookupPattern (patternAppend (patternAppend (patternAppend patternInit
        "/blog/1" none) "/blog/2" none) "/about" none).known_patterns
        "blog/<num>" = some 2 ∧
      lookupPattern (patternAppend (patternAppend (patternAppend patternInit
        "/blog/1" none) "/blog/2" none) "/about" none).known_patterns
        "about" = some 1) := by
  refine ⟨?_, ?_, by decide, by decide, by decide, by decide⟩
  · intro s url r hmem hl
    unfold patternAppend
    rw [if_neg hmem, hl]
  · intro s url r n hmem hl
    have he : patternAppend s url r =
        ⟨s.urls ++ [url], s.priority_urls, url :: s.known_urls,
          (url, r) :: s.referrers,
          bumpPattern s.known_patterns (make_pattern url)⟩ := by
      unfold patternAppend
      rw [if_neg hmem, hl]
    refine ⟨he, ?_⟩
    rw [he]
    exact lookupPattern_bump _ _ _ hl

/-- Concrete instance of the pattern-novelty contract: appending a URL with
an unseen pattern to a fresh queue makes it a priority URL with count 1. -/
theorem pattern_priority_append_witness :
    patternAppend patternInit "/about" none =
      ⟨[], ["/about"], ["/about"], [("/about", none)], [("about", 1)]⟩ :=
  pattern_priority_append.1 patternInit "/about" none (by decide) (by decide)

/-! ## C7: the max-requests stop condition -/

theorem fifoPop_none_iff (s : FifoState) : fifoPop s = none ↔ s.urls = [] := by
  cases s with
  | mk urls k r => cases urls <;> simp [fifoPop]

theorem crawl_fc_bound (cfg : CrawlCfg) (tr : String → FetchResult) :
    ∀ (fuel : Nat) (s : CrawlState), cfg.max_requests ≠ 0 →
      s.fetchcount < cfg.max_requests →
      (crawl cfg tr fuel s).1.fetchcount ≤ cfg.max_requests := by
  intro fuel
  induction fuel with
  | zero => intro s h1 h2; simpa [crawl] using h2.le
  | succ n ih =>
    intro s h1 h2
    cases hp : fifoPop s.queue with
    | none => rw [crawl, hp]; exact h2.le
    | some p =>
      obtain ⟨url, q⟩ := p
      cases htr : tr url with
      | connFail =>
        simp only [crawl, hp, htr]
        exact ih ⟨q, s.fetchcount⟩ h1 h2
      | ok cloc links =>
        simp only [crawl, hp, htr]
        by_cases hb : cfg.max_requests ≤ s.fetchcount + 1
        · rw [if_pos ⟨h1, hb⟩]
          exact h2
        · rw [if_neg (fun hx => hb hx.2)]
          have h3 : s.fetchcount + 1 < cfg.max_requests := by omega
          by_cases hr : cfg.recursive = true
          · rw [if_pos hr]
            exact ih _ h1 h3
          · rw [if_neg hr]
            exact ih _ h1 h3

theorem crawl_unlimited (cfg : CrawlCfg) (tr : String → FetchResult)
    (h0 : cfg.max_requests = 0) :
    ∀ (fuel : Nat) (s : CrawlState), (crawl cfg tr fuel s).2 = true →
      (crawl cfg tr fuel s).1.queue.urls = [] := by
  intro fuel
  induction fuel with
  | zero => intro s h; simp [crawl] at h
  | succ n ih =>
    intro s h
    cases hp : fifoPop s.queue with
    | none =>
      rw [crawl, hp]
      exact (fifoPop_none_iff s.queue).mp hp
    | some p =>
      obtain ⟨url, q⟩ := p
      cases htr : tr url with
      | connFail =>
        simp only [crawl, hp, htr] at h ⊢
        exact ih _ h
      | ok cloc links =>
        simp only [crawl, hp, htr] at h ⊢
        rw [if_neg (fun hx => hx.1 h0)] at h ⊢
        by_cases hr : cfg.recursive = true
        · rw [if_pos hr] at h ⊢
          exact ih _ h
        · rw [if_neg hr] at h ⊢
          exact ih _ h

/-- Claim C7 (confirmed): with a positive `max_requests` limit `N` the
crawl loop never exceeds `N` completed fetches; on an unbounded site it
performs exactly `N` of them and then exits the loop normally, with the
limit check made after the fetch and before any link extraction (the
`N`-th page's links are never enqueued); connection failures that abandon a
URL are not counted (the failing site pops three URLs but counts two); and
`max_requests = 0` disables the limit — the loop then only terminates
because the frontier is empty. -/
theorem crawl_max_requests :
    (∀ (cfg : CrawlCfg) (tr : String → FetchResult) (fuel : Nat)
      (s : CrawlState), cfg.max_requests ≠ 0 →
      s.fetchcount < cfg.max_requests →
      (crawl cfg tr fuel s).1.fetchcount ≤ cfg.max_requests) ∧
    (∀ (cfg : CrawlCfg) (tr : String → FetchResult) (fuel : Nat)
      (s : CrawlState), cfg.max_requests = 0 →
      (crawl cfg tr fuel s).2 = true →
      (crawl cfg tr fuel s).1.queue.urls = []) ∧
    crawl ⟨5, true⟩ chainSite 12 (seedState "s") =
      (⟨⟨[], ["sxxxx", "sxxx", "sxx", "sx", "s"],
        [("sxxxx", some "sxxx"), ("sxxx", some "sxx"), ("sxx", some "sx"),
         ("sx", some "s"), ("s", none)]⟩, 5⟩, true) ∧
    (crawl ⟨5, true⟩ chainSite 12 (seedState "s")).1.queue.known_urls.contains
      "sxxxxx" = false ∧
    (crawl ⟨0, true⟩ failSite 10 (seedState "s")).1.fetchcount = 2 ∧
    (crawl ⟨0, true⟩ failSite 10 (seedState "s")).2 = true := by
  exact ⟨fun cfg tr => crawl_fc_bound cfg tr,
    fun cfg tr fuel s h0 => crawl_unlimited cfg tr h0 fuel s,
    by decide, by decide, by decide, by decide⟩

/-- Concrete instances of the limit bound and of the unlimited mode. -/
theorem crawl_max_requests_witness :
    (crawl ⟨5, true⟩ chainSite 3 (seedState "s")).1.fetchcount ≤ 5 ∧
    (crawl ⟨0, false⟩ (fun _ => .connFail) 4 (seedState "s")).1.queue.urls =
      [] :=
  ⟨crawl_max_requests.1 ⟨5, true⟩ chainSite 3 (seedState "s") (by decide)
      (by decide),
    crawl_max_requests.2.1 ⟨0, false⟩ (fun _ => .connFail) 4 (seedState "s")
      rfl (by decide)⟩

/-! ## C8: duplicate append is a silent no-op -/

/-- Claim C8 (confirmed): for every frontier variant, appending a URL that
is already in the known set returns without error and leaves the whole
state unchanged — pending queues, known set, pattern counts and the
recorded first referrer included (`fifoAppend` is the `append` of the
FIFO, random and depth-first variants, which inherit it unchanged). -/
theorem frontier_append_duplicate_noop :
    (∀ (s : FifoState) (u : String) (r : Option String),
      u ∈ s.known_urls → fifoAppend s u r = s) ∧
    (∀ (s : HybridState) (u : String) (r : Option String),
      u ∈ s.known_urls → hybridAppend s u r = s) ∧
    (∀ (s : PatternState) (u : String) (r : Option String),
      u ∈ s.known_urls → patternAppend s u r = s) := by
  refine ⟨?_, ?_, ?_⟩
  · intro s u r h
    unfold fifoAppend
    rw [if_pos h]
  · intro s u r h
    unfold hybridAppend
    rw [if_pos h]
  · intro s u r h
    unfold patternAppend
    rw [if_pos h]

/-- Concrete instance: re-appending an already-known URL with a different
referrer changes nothing, so the first referrer survives. -/
theorem frontier_append_duplicate_noop_witness :
    fifoAppend (fifoAppend fifoInit "a" (some "r1")) "a" (some "r2") =
      fifoAppend fifoInit "a" (some "r1") :=
  frontier_append_duplicate_noop.1 (fifoAppend fifoInit "a" (some "r1")) "a"
    (some "r2") (by decide)

/-! ## C9: the pop contract -/

theorem perm_get_eraseIdx :
    ∀ (l : List String) (j : Nat) (h : j < l.length),
      l.Perm (l.get ⟨j, h⟩ :: l.eraseIdx j) := by
  intro l
  induction l with
  | nil => intro j h; simp at h
  | cons a t ih =>
    intro j h
    cases j with
    | zero => simp [List.eraseIdx]
    | succ j =>
      have h2 : j < t.length := Nat.lt_of_succ_lt_succ h
      have hp := ih j h2
      simp only [List.get_cons_succ, List.eraseIdx_cons_succ]
      exact (hp.cons a).trans (List.Perm.swap (t.get ⟨j, h2⟩) a (t.eraseIdx j))

theorem perm_getLast_dropLast :
    ∀ (l : List String) (u : String), l.getLast? = some u →
      l.Perm (u :: l.dropLast) := by
  intro l
  induction l with
  | nil => intro u h; simp [List.getLast?] at h
  | cons a t ih =>
    intro u h
    cases t with
    | nil =>
      simp [List.getLast?] at h
      subst h
      simp
    | cons b t2 =>
      rw [List.getLast?_cons_cons] at h
      have hp := ih u h
      simp only [List.dropLast_cons₂]
      exact (hp.cons a).trans (List.Perm.swap u a ((b :: t2).dropLast))

theorem getLast?_none_iff :
    ∀ (l : List String), l.getLast? = none ↔ l = [] := by
  intro l
  cases l with
  | nil => simp
  | cons a t =>
    simp [List.getLast?_eq_none_iff]

/-- Claim C9 (confirmed): for every frontier variant, `pop()` fails
(deque/list `IndexError`, or `ValueError` from `randint(0, -1)` — the
spec's `EmptyQueue`) exactly when `len()` is zero, and it never returns a
sentinel instead; whenever pending URLs exist the pop removes and returns
exactly one of them: the pending URLs before the call are a permutation of
the returned URL consed onto the pending URLs after it.  `i` is the random
oracle of the randomizing pops. -/
theorem frontier_pop_contract :
    (∀ s, fifoPop s = none ↔ fifoLen s = 0) ∧
    (∀ s u s2, fifoPop s = some (u, s2) → s.urls.Perm (u :: s2.urls)) ∧
    (∀ (i : Nat) s, randomPop i s = none ↔ fifoLen s = 0) ∧
    (∀ (i : Nat) s u s2, randomPop i s = some (u, s2) →
      s.urls.Perm (u :: s2.urls)) ∧
    (∀ s, depthPop s = none ↔ fifoLen s = 0) ∧
    (∀ s u s2, depthPop s = some (u, s2) → s.urls.Perm (u :: s2.urls)) ∧
    (∀ s, hybridPop s = none ↔ hybridLen s = 0) ∧
    (∀ s u s2, hybridPop s = some (u, s2) → s.urls.Perm (u :: s2.urls)) ∧
    (∀ (i : Nat) s, patternPop i s = none ↔ patternLen s = 0) ∧
    (∀ (i : Nat) s u s2, patternPop i s = some (u, s2) →
      (patternPending s).Perm (u :: patternPending s2)) := by
  refine ⟨?_, ?_, ?_, ?_, ?_, ?_, ?_, ?_, ?_, ?_⟩
  · intro s
    cases s with
    | mk urls k r => cases urls <;> simp [fifoPop, fifoLen]
  · intro s u s2 h
    unfold fifoPop at h
    split at h
    · exact absurd h (by simp)
    · simp only [Option.some.injEq, Prod.mk.injEq] at h
      obtain ⟨rfl, rfl⟩ := h
      next a rest heq => rw [heq]
  · intro i s
    unfold randomPop
    split
    · next h => simp [fifoLen, h]
    · next h => simp [fifoLen, h]
  · intro i s u s2 h
    unfold randomPop at h
    split at h
    · exact absurd h (by simp)
    · simp only [Option.some.injEq, Prod.mk.injEq] at h
      obtain ⟨rfl, rfl⟩ := h
      exact perm_get_eraseIdx s.urls _ _
  · intro s
    unfold depthPop
    cases hl : s.urls.getLast? with
    | none =>
      simp [fifoLen, (getLast?_none_iff s.urls).mp hl]
    | some u =>
      have : s.urls ≠ [] := by
        intro he
        rw [he] at hl
        simp [List.getLast?] at hl
      simp [fifoLen, List.length_eq_zero, this]
  · intro s u s2 h
    unfold depthPop at h
    split at h
    · exact absurd h (by simp)
    · next v hl =>
      simp only [Option.some.injEq, Prod.mk.injEq] at h
      obtain ⟨rfl, rfl⟩ := h
      exact perm_getLast_dropLast s.urls _ hl
  · intro s
    unfold hybridPop
    split
    · cases hu : s.urls <;> simp [hybridLen, hu]
    · cases hl : s.urls.getLast? with
      | none =>
        simp [hybridLen, (getLast?_none_iff s.urls).mp hl]
      | some u =>
        have : s.urls ≠ [] := by
          intro he
          rw [he] at hl
          simp [List.getLast?] at hl
        simp [hybridLen, List.length_eq_zero, this]
  · intro s u s2 h
    unfold hybridPop at h
    split at h
    · split at h
      · exact absurd h (by simp)
      · simp only [Option.some.injEq, Prod.mk.injEq] at h
        obtain ⟨rfl, rfl⟩ := h
        next a rest heq => rw [heq]
    · split at h
      · exact absurd h (by simp)
      · next v hl =>
        simp only [Option.some.injEq, Prod.mk.injEq] at h
        obtain ⟨rfl, rfl⟩ := h
        exact perm_getLast_dropLast s.urls _ hl
  · intro i s
    cases hl : s.priority_urls.getLast? with
    | some u =>
      have hne : s.priority_urls ≠ [] := by
        intro he2
        rw [he2] at hl
        simp [List.getLast?] at hl
      have hlen : s.priority_urls.length ≠ 0 := by
        simpa [List.length_eq_zero] using hne
      simp [patternPop, hl, patternLen, hne]
    | none =>
      have he : s.priority_urls = [] := (getLast?_none_iff _).mp hl
      simp only [patternPop, hl]
      split
      · next hz => simp [patternLen, he, hz]
      · next hz =>
        simp [patternLen, he]
        simpa [List.length_eq_zero] using hz
  · intro i s u s2 h
    unfold patternPop at h
    split at h
    · next v hl =>
      simp only [Option.some.injEq, Prod.mk.injEq] at h
      obtain ⟨rfl, rfl⟩ := h
      have hp := perm_getLast_dropLast s.priority_urls _ hl
      unfold patternPending
      exact hp.append_right s.urls
    · next hl =>
      split at h
      · exact absurd h (by simp)
      · next hlen =>
        simp only [Option.some.injEq, Prod.mk.injEq] at h
        obtain ⟨rfl, rfl⟩ := h
        have he : s.priority_urls = [] := (getLast?_none_iff _).mp hl
        unfold patternPending
        simp only [he, List.nil_append]
        exact perm_get_eraseIdx s.urls _ _

/-- Concrete instances of the pop contract: a successful FIFO pop returns a
permutation witness, and a random pop with oracle 1 on a two-element list
removes exactly the drawn element. -/
theorem frontier_pop_contract_witness :
    (["a", "b"] : List String).Perm ("a" :: ["b"]) ∧
    (["a", "b"] : List String).Perm ("b" :: ["a"]) :=
  ⟨frontier_pop_contract.2.1 ⟨["a", "b"], ["b", "a"], []⟩ "a"
      ⟨["b"], ["b", "a"], []⟩ rfl,
    frontier_pop_contract.2.2.2.1 1 ⟨["a", "b"], ["b", "a"], []⟩ "b"
      ⟨["a"], ["b", "a"], []⟩ (by decide)⟩

/-! ## C10: extend's effect on the caller's list argument -/

/-- Claim C10 (confirmed): `DepthFirstQueue.extend` and the hybrid variant
inheriting it call `urls.sort(...)`, an in-place sort of the caller's list —
the argument object observably becomes the sorted list (and must therefore
be a mutable list); the FIFO/random variants iterate the argument without
modifying it, and the pattern variant rebinds a local name to a fresh
sorted copy built from a set, so in all three of those the caller's list is
unchanged.  The second component of each `extendP` is the content of the
caller's list object after the call. -/
theorem extend_argument_mutation :
    (∀ (s : FifoState) (urls : List String) (r : Option String),
      (fifoExtendP s urls r).2 = urls) ∧
    (∀ (s : PatternState) (urls : List String) (r : Option String),
      (patternExtendP s urls r).2 = urls) ∧
    (∀ (s : FifoState) (urls : List String) (r : Option String),
      (depthExtendP s urls r).2 = sortByKey countSlash urls) ∧
    (∀ (s : HybridState) (urls : List String) (r : Option String),
      (hybridExtendP s urls r).2 = sortByKey countSlash urls) ∧
    (depthExtendP fifoInit ["/x/y", "/z"] none).2 = ["/z", "/x/y"] ∧
    ((["/z", "/x/y"] : List String) == ["/x/y", "/z"]) = false := by
  exact ⟨fun s urls r => rfl, fun s urls r => rfl, fun s urls r => rfl,
    fun s urls r => rfl, by decide, by decide⟩

end Spydey
